import Mathlib

/-!
Verification of the kubeadm composable-workflow phase runner
(`cmd/kubeadm/app/cmd/phases/workflow/runner.go`): phase-tree flattening,
run-flag computation from filter/skip options, the shared run-data
singleton, and the sequential fail-fast executor.
-/

namespace Workflow

/-! ### Go map model

Go `map[string]V` restricted to the operations the runner uses:
insert-or-overwrite, lookup (with the `ok` flag as `Option`), and lookup
with a zero-value default (Go returns the zero value for missing keys).
-/

/-- Lookup in a Go-style map, `none` when the key is absent. -/
def mapGet {α : Type} (m : List (String × α)) (k : String) : Option α :=
  match m with
  | [] => none
  | (k', v) :: rest => if k' = k then some v else mapGet rest k

/-- Insert-or-overwrite in a Go-style map. -/
def mapSet {α : Type} (m : List (String × α)) (k : String) (v : α) :
    List (String × α) :=
  match m with
  | [] => [(k, v)]
  | (k', v') :: rest =>
      if k' = k then (k, v) :: rest else (k', v') :: mapSet rest k v

/-- Lookup with a default, matching Go's zero-value behavior for missing
keys (`phaseHierarchy[f]` is the nil slice when `f` is absent). -/
def mapGetD {α : Type} (m : List (String × α)) (k : String) (d : α) : α :=
  (mapGet m k).getD d

/-! ### Phase descriptors

`Phase` mirrors the fields of the Go `Phase` struct that the runner's
execution engine reads: `Name`, `Hidden`, `RunAllSiblings`, `RunIf`,
`Run`, and the nested `Phases`.  `RunData` is Go's `interface{}`; a nil
interface is modeled as `none`, so actions and conditions receive an
`Option δ`.  `Run` returns `error` (`none` = nil); `RunIf` returns
`(bool, error)`, modeled as `Except String Bool`.
-/

inductive Phase (δ : Type) : Type where
  | mk (name : String) (hidden : Bool) (runAllSiblings : Bool)
       (runIf : Option (Option δ → Except String Bool))
       (run : Option (Option δ → Option String))
       (phases : List (Phase δ)) : Phase δ

def Phase.name {δ : Type} : Phase δ → String
  | .mk n _ _ _ _ _ => n

def Phase.hidden {δ : Type} : Phase δ → Bool
  | .mk _ h _ _ _ _ => h

def Phase.runAllSiblings {δ : Type} : Phase δ → Bool
  | .mk _ _ ras _ _ _ => ras

def Phase.runIf {δ : Type} : Phase δ → Option (Option δ → Except String Bool)
  | .mk _ _ _ ri _ _ => ri

def Phase.run {δ : Type} : Phase δ → Option (Option δ → Option String)
  | .mk _ _ _ _ r _ => r

def Phase.phases {δ : Type} : Phase δ → List (Phase δ)
  | .mk _ _ _ _ _ ps => ps

/-- The `phaseSeparator` constant from runner.go. -/
def phaseSeparator : String := "/"

/-- Go `cleanName`: lower-case the phase name and drop everything from the
first space on (`strings.Index(ret, " ")`), expressed on the underlying
character list. -/
def cleanName (name : String) : String :=
  ⟨(name.data.map Char.toLower).takeWhile (fun c => c ≠ ' ')⟩

/-- A flattened phase node (`phaseRunner` in runner.go).  The Go struct
keeps a `parent` pointer; the chain of parents is represented here by the
list of ancestor `generatedName`s, nearest parent first, which is exactly
what `computePhaseRunFlags` walks. -/
structure PhaseRunner (δ : Type) where
  phase : Phase δ
  generatedName : String
  ancestors : List String

/-- Parent context handed down during flattening: the parent's
`generatedName` together with the parent's own ancestor chain. -/
def childCtx {δ : Type} (parent : Option (String × List String))
    (p : Phase δ) : String × List String :=
  match parent with
  | none => (cleanName p.name, [])
  | some pr => (pr.1 ++ phaseSeparator ++ cleanName p.name, pr.1 :: pr.2)

mutual
/-- Go `addPhaseRunner` from runner.go: append the node for `p` to the
accumulated list, then iterate over the nested phases in order. -/
def addPhaseRunner {δ : Type} (acc : List (PhaseRunner δ))
    (parent : Option (String × List String)) (p : Phase δ) :
    List (PhaseRunner δ) :=
  match p with
  | .mk n h ras ri r children =>
      let ctx := childCtx parent (.mk n h ras ri r children)
      addPhaseRunnerList
        (acc ++ [⟨.mk n h ras ri r children, ctx.1, ctx.2⟩])
        (some ctx) children

/-- The `for _, childPhase := range phase.Phases` loop of
`addPhaseRunner`. -/
def addPhaseRunnerList {δ : Type} (acc : List (PhaseRunner δ))
    (parent : Option (String × List String)) :
    List (Phase δ) → List (PhaseRunner δ)
  | [] => acc
  | c :: cs => addPhaseRunnerList (addPhaseRunner acc parent c) parent cs
end

/-- Go `prepareForExecution` from runner.go: rebuild the `phaseRunners`
list, skipping top-level phases marked `RunAllSiblings`. -/
def prepareForExecution {δ : Type} (phases : List (Phase δ)) :
    List (PhaseRunner δ) :=
  phases.foldl
    (fun acc p => if p.runAllSiblings then acc else addPhaseRunner acc none p)
    []

/-! ### Spec-side pre-order traversal

Modelled from the spec's words for the Phase Tree Flattener contract
(§4.1 / §3 invariant): a node immediately followed by the recursively
flattened subtrees of its children, in declaration order.  This is the
independent definition the implementation's accumulator-based
`addPhaseRunner` is compared against.
-/

mutual
/-- Pre-order node list of a single phase subtree. -/
def preorderNodes {δ : Type} (parent : Option (String × List String))
    (p : Phase δ) : List (PhaseRunner δ) :=
  match p with
  | .mk n h ras ri r children =>
      let ctx := childCtx parent (.mk n h ras ri r children)
      ⟨.mk n h ras ri r children, ctx.1, ctx.2⟩ ::
        preorderList (some ctx) children

/-- Pre-order node list of a forest. -/
def preorderList {δ : Type} (parent : Option (String × List String)) :
    List (Phase δ) → List (PhaseRunner δ)
  | [] => []
  | c :: cs => preorderNodes parent c ++ preorderList parent cs
end

/-- Pre-order flattening of the declared top-level phases, dropping the
top-level `runAllSiblings` entries exactly as `prepareForExecution`
does. -/
def preorderFlatten {δ : Type} (phases : List (Phase δ)) :
    List (PhaseRunner δ) :=
  (phases.filter (fun p => !p.runAllSiblings)).foldr
    (fun p acc => preorderNodes none p ++ acc) []

/-! ### Run-flag computation (`computePhaseRunFlags`) -/

/-- The `RunnerOptions` struct from runner.go. -/
structure RunnerOptions where
  filterPhases : List String
  skipPhases : List String

/-- The `errors.Errorf("无效的阶段名称: %s", f)` message. -/
def unknownPhaseMsg (f : String) : String :=
  "无效的阶段名称: " ++ f

/-- First `visitAll` pass of `computePhaseRunFlags`: initialize every
node's flag to `true`, reset the node's own hierarchy entry, and register
the node's `generatedName` under every ancestor in the hierarchy map. -/
def initFlagsHier {δ : Type} (rs : List (PhaseRunner δ)) :
    List (String × Bool) × List (String × List String) :=
  rs.foldl
    (fun st p =>
      let fl := mapSet st.1 p.generatedName true
      let hi := mapSet st.2 p.generatedName []
      let hi := p.ancestors.foldl
        (fun h a => mapSet h a (mapGetD h a [] ++ [p.generatedName])) hi
      (fl, hi))
    ([], [])

/-- The `for i := range phaseRunFlags { phaseRunFlags[i] = false }` loop. -/
def setAllFalse (fl : List (String × Bool)) : List (String × Bool) :=
  fl.map (fun kv => (kv.1, false))

/-- Set a list of names to a fixed flag value
(the `for _, c := range phaseHierarchy[f]` loops). -/
def setAllTo (fl : List (String × Bool)) (xs : List String) (v : Bool) :
    List (String × Bool) :=
  xs.foldl (fun m c => mapSet m c v) fl

/-- Common shape of the `FilterPhases` and `SkipPhases` loops, which
differ only in the flag value they write: unknown names fail, known names
and their hierarchy entries are set to `v`. -/
def applyList (v : Bool) (hier : List (String × List String)) :
    List (String × Bool) → List String → Except String (List (String × Bool))
  | fl, [] => .ok fl
  | fl, f :: fs =>
      match mapGet fl f with
      | none => .error (unknownPhaseMsg f)
      | some _ =>
          applyList v hier (setAllTo (mapSet fl f v) (mapGetD hier f []) v) fs

/-- The `FilterPhases` loop: switch the listed phases and their
hierarchies on. -/
def applyFilter (hier : List (String × List String))
    (fl : List (String × Bool)) (fs : List String) :
    Except String (List (String × Bool)) :=
  applyList true hier fl fs

/-- The `SkipPhases` loop: switch the listed phases and their
hierarchies off. -/
def applySkip (hier : List (String × List String))
    (fl : List (String × Bool)) (fs : List String) :
    Except String (List (String × Bool)) :=
  applyList false hier fl fs

/-- Go `computePhaseRunFlags` from runner.go, as a function of the flattened
node list and the options. -/
def computePhaseRunFlags {δ : Type} (rs : List (PhaseRunner δ))
    (opts : RunnerOptions) : Except String (List (String × Bool)) :=
  let st := initFlagsHier rs
  let step1 : Except String (List (String × Bool)) :=
    if opts.filterPhases.isEmpty then .ok st.1
    else applyFilter st.2 (setAllFalse st.1) opts.filterPhases
  match step1 with
  | .error e => .error e
  | .ok fl1 => applySkip st.2 fl1 opts.skipPhases

/-! ### Executor

The `visitAll` callback in `Run`, instrumented with two traces: the
`generatedName`s whose `RunIf` was invoked, and those whose `Run` action
was invoked.  An `ExecLog` is `(condTrace, actionTrace, returned error)`.
-/

/-- The message of `errors.Errorf("phase marked as RunAllSiblings can not have Run
functions %s", ...)`. -/
def runAllSiblingsMsg (n : String) : String :=
  "phase marked as RunAllSiblings can not have Run functions " ++ n

/-- The message of `errors.Wrapf(err, "error execution run condition for phase %s", ...)`:
pkg/errors wrapping produces `message: cause`. -/
def condWrapMsg (n msg : String) : String :=
  "error execution run condition for phase " ++ n ++ ": " ++ msg

/-- The message of `errors.Wrapf(err, "error execution phase %s", ...)`. -/
def actionWrapMsg (n msg : String) : String :=
  "error execution phase " ++ n ++ ": " ++ msg

/-- One invocation of the `visitAll` callback in `Run` for a single node:
skip when the run flag is not `true`, guard against `RunAllSiblings`
nodes with run functions, evaluate `RunIf`, then invoke `Run`. -/
def visitNode {δ : Type} (data : Option δ) (flags : List (String × Bool))
    (p : PhaseRunner δ) : List String × List String × Option String :=
  match mapGet flags p.generatedName with
  | some true =>
      if p.phase.runAllSiblings &&
          (p.phase.runIf.isSome || p.phase.run.isSome) then
        ([], [], some (runAllSiblingsMsg p.generatedName))
      else
        match p.phase.runIf with
        | some cond =>
            match cond data with
            | .error e =>
                ([p.generatedName], [], some (condWrapMsg p.generatedName e))
            | .ok false => ([p.generatedName], [], none)
            | .ok true =>
                match p.phase.run with
                | some act =>
                    match act data with
                    | some e =>
                        ([p.generatedName], [p.generatedName],
                          some (actionWrapMsg p.generatedName e))
                    | none => ([p.generatedName], [p.generatedName], none)
                | none => ([p.generatedName], [], none)
        | none =>
            match p.phase.run with
            | some act =>
                match act data with
                | some e =>
                    ([], [p.generatedName],
                      some (actionWrapMsg p.generatedName e))
                | none => ([], [p.generatedName], none)
            | none => ([], [], none)
  | _ => ([], [], none)

/-- Go `visitAll` applied to the `Run` callback: visit nodes in list order,
stopping at the first error (fail-fast). -/
def runPhases {δ : Type} (data : Option δ) (flags : List (String × Bool)) :
    List (PhaseRunner δ) → List String × List String × Option String
  | [] => ([], [], none)
  | p :: rest =>
      let r := visitNode data flags p
      match r.2.2 with
      | some m => (r.1, r.2.1, some m)
      | none =>
          let r2 := runPhases data flags rest
          (r.1 ++ r2.1, r.2.1 ++ r2.2.1, r2.2.2)

/-! ### Runner state, `InitData`, `Run` -/

/-- The `Runner` struct fields the execution path reads.  `runData` is the
cached shared run data (`nil` = `none`); `runDataInitializer` is the
registered factory.  Like the Go
`func(*cobra.Command, []string) (RunData, error)`, the factory returns a
data value AND an error as two separate results (first component: the
`RunData`, `none` = nil interface; second component: the `error`), so
it can return a non-nil data value together with a non-nil error — as
the reset workflow's initializer does when it returns a typed-nil
pointer inside a non-nil interface on an error path.  The
`*cobra.Command` argument of the Go factory is CLI plumbing and is
dropped. -/
structure Runner (δ : Type) where
  options : RunnerOptions
  phases : List (Phase δ)
  runDataInitializer : Option (List String → Option δ × Option String)
  runData : Option δ

/-- Go `InitData` from runner.go, additionally reporting how many times the
factory was invoked during this call (`0` or `1`).  If no run data is
cached and a factory is registered, invoke it; the tuple assignment
`e.runData, err = e.runDataInitializer(e.runCmd, args)` writes the
factory's returned data value into the cache BEFORE the error check, so
the data is cached even when the factory also returns an error; on
error the call returns `(nil, err)`.  Otherwise return the cached value
and ignore the arguments. -/
def initData {δ : Type} (e : Runner δ) (args : List String) :
    Runner δ × Except String (Option δ) × Nat :=
  match e.runData, e.runDataInitializer with
  | none, some f =>
      let r := f args
      match r.2 with
      | some err => ({ e with runData := r.1 }, .error err, 1)
      | none => ({ e with runData := r.1 }, .ok r.1, 1)
  | _, _ => (e, .ok e.runData, 0)

/-- A sequence of `InitData` calls on one runner, summing the factory
invocation counts. -/
def initCalls {δ : Type} (e : Runner δ) : List (List String) → Runner δ × Nat
  | [] => (e, 0)
  | args :: rest =>
      let r := initData e args
      let r2 := initCalls r.1 rest
      (r2.1, r.2.2 + r2.2)

/-- Go `Run` from runner.go: rebuild the node list, compute the run flags
(failing early on unknown phase names), build the shared run data via
`InitData` (failing early on factory errors), then visit all nodes.
Returns the updated runner state together with the execution log. -/
def Runner.run {δ : Type} (e : Runner δ) (args : List String) :
    Runner δ × (List String × List String × Option String) :=
  let rs := prepareForExecution e.phases
  match computePhaseRunFlags rs e.options with
  | .error msg => (e, ([], [], some msg))
  | .ok flags =>
      match initData e args with
      | (e1, .error msg, _) => (e1, ([], [], some msg))
      | (e1, .ok data, _) => (e1, runPhases data flags rs)

/-! ### Auxiliary definitions used by the statements and proofs -/

/-- The `generatedName`s of a node list. -/
def runnerNames {δ : Type} (rs : List (PhaseRunner δ)) : List String :=
  rs.map (fun r => r.generatedName)

/-- The inner loop of the first `computePhaseRunFlags` pass: register
name `nm` under every ancestor in `ancs`. -/
def ancFold (nm : String) (hi : List (String × List String))
    (ancs : List String) : List (String × List String) :=
  ancs.foldl (fun h a => mapSet h a (mapGetD h a [] ++ [nm])) hi

/-- One step of the hierarchy construction: reset the node's own entry,
then register it under every ancestor. -/
def hierStep {δ : Type} (hi : List (String × List String))
    (p : PhaseRunner δ) : List (String × List String) :=
  ancFold p.generatedName (mapSet hi p.generatedName []) p.ancestors

/-- The hierarchy component of the first `computePhaseRunFlags` pass. -/
def hierFold {δ : Type} (hi : List (String × List String))
    (rs : List (PhaseRunner δ)) : List (String × List String) :=
  rs.foldl hierStep hi

/-- The flag component of the first `computePhaseRunFlags` pass. -/
def flagsFold {δ : Type} (fl : List (String × Bool))
    (rs : List (PhaseRunner δ)) : List (String × Bool) :=
  rs.foldl (fun fl p => mapSet fl p.generatedName true) fl

/-- The ancestor chain a parent context hands to its children: nothing
at top level, the parent's name followed by the parent's own chain
otherwise. -/
def ctxAncestors (parent : Option (String × List String)) : List String :=
  match parent with
  | none => []
  | some pr => pr.1 :: pr.2

/-- Every node's recorded ancestor chain consists of names that appear
strictly earlier in the list (`done` is the reversed list of names
already emitted).  The flattened list of any phase tree satisfies this:
a parent is emitted before all of its descendants. -/
def ancOK {δ : Type} : List String → List (PhaseRunner δ) → Prop
  | _, [] => True
  | done, r :: rs =>
      (∀ a ∈ r.ancestors, a ∈ done) ∧ ancOK (r.generatedName :: done) rs

mutual
/-- Number of descriptors in a phase subtree (the descriptor itself plus
all nested ones, `runAllSiblings` or not). -/
def descCount {δ : Type} : Phase δ → Nat
  | .mk _ _ _ _ _ children => 1 + descCountList children

/-- Number of descriptors in a forest. -/
def descCountList {δ : Type} : List (Phase δ) → Nat
  | [] => 0
  | c :: cs => descCount c + descCountList cs
end

/-- Whether the run flag of a node is `true` in the flag map. -/
def flagOn {δ : Type} (flags : List (String × Bool)) (p : PhaseRunner δ) :
    Bool :=
  match mapGet flags p.generatedName with
  | some true => true
  | _ => false

/-- Whether a node's run condition lets it run: no `RunIf`, or `RunIf`
returning `(true, nil)`. -/
def condPass {δ : Type} (data : Option δ) (p : PhaseRunner δ) : Bool :=
  match p.phase.runIf with
  | none => true
  | some c =>
      match c data with
      | .ok true => true
      | _ => false

/-- Whether the executor invokes a node's action: flag on, not a
`runAllSiblings` node, condition passing, action present. -/
def wouldRunAction {δ : Type} (data : Option δ)
    (flags : List (String × Bool)) (p : PhaseRunner δ) : Bool :=
  flagOn flags p && !p.phase.runAllSiblings && condPass data p &&
    p.phase.run.isSome

/-- The condition-trace contribution of a node whose condition gets
evaluated: one entry when a `RunIf` is present. -/
def condMark {δ : Type} (p : PhaseRunner δ) : List String :=
  if p.phase.runIf.isSome then [p.generatedName] else []

/-! ### Concrete workflows used in the example theorems -/

/-- An action that succeeds. -/
def okAct : Option Nat → Option String := fun _ => none

/-- An action that fails with `boom`. -/
def boomAct : Option Nat → Option String := fun _ => some "boom"

/-- A run condition returning `(false, nil)`. -/
def condFalseFn : Option Nat → Except String Bool := fun _ => .ok false

/-- Leaf `D` of the spec's example tree `A{B,C{D}}`. -/
def phaseD0 : Phase Nat := .mk "D" false false none (some okAct) []

/-- Node `C` of the spec's example tree. -/
def phaseC0 : Phase Nat := .mk "C" false false none none [phaseD0]

/-- Leaf `B` of the spec's example tree. -/
def phaseB0 : Phase Nat := .mk "B" false false none (some okAct) []

/-- The spec's example tree `A{B,C{D}}`. -/
def phaseTreeA : Phase Nat := .mk "A" false false none (some okAct) [phaseB0, phaseC0]

/-- A runner over `A{B,C{D}}` with default options. -/
def runnerA : Runner Nat := ⟨⟨[], []⟩, [phaseTreeA], none, none⟩

/-- All-true run flags of `A{B,C{D}}`. -/
def flagsA : List (String × Bool) :=
  [("a", true), ("a/b", true), ("a/c", true), ("a/c/d", true)]

/-- Expected run flags for `FilterPhases=[a]`, `SkipPhases=[a/c]`. -/
def mapC1 : List (String × Bool) :=
  [("a", true), ("a/b", true), ("a/c", false), ("a/c/d", false)]

/-- Expected run flags for `FilterPhases=[a/c]`, `SkipPhases=[]`. -/
def mapC2 : List (String × Bool) :=
  [("a", false), ("a/b", false), ("a/c", true), ("a/c/d", true)]

/-- A runner over `A{B,C{D}}` filtering on the unknown name `a/zzz`. -/
def unknownRunner : Runner Nat := ⟨⟨["a/zzz"], []⟩, [phaseTreeA], none, none⟩

/-- First phase of the fail-fast example `a,b,c`. -/
def phaseA3 : Phase Nat := .mk "a" false false none (some okAct) []

/-- Second phase of the fail-fast example: its action errors. -/
def phaseB3 : Phase Nat := .mk "b" false false none (some boomAct) []

/-- Third phase of the fail-fast example. -/
def phaseC3 : Phase Nat := .mk "c" false false none (some okAct) []

/-- The spec's fail-fast example: `a,b,c` with `b` failing. -/
def failFastRunner : Runner Nat :=
  ⟨⟨[], []⟩, [phaseA3, phaseB3, phaseC3], none, none⟩

/-- Flattened node of `phaseA3`. -/
def nodeA3 : PhaseRunner Nat := ⟨phaseA3, "a", []⟩

/-- Flattened node of `phaseB3`. -/
def nodeB3 : PhaseRunner Nat := ⟨phaseB3, "b", []⟩

/-- Flattened node of `phaseC3`. -/
def nodeC3 : PhaseRunner Nat := ⟨phaseC3, "c", []⟩

/-- All-true run flags of the fail-fast example. -/
def flagsABC : List (String × Bool) := [("a", true), ("b", true), ("c", true)]

/-- A run-flagged phase with an action that is skipped by its condition. -/
def phaseACondSkip : Phase Nat :=
  .mk "a" false false (some condFalseFn) (some okAct) []

/-- A condition-skipped phase followed by a failing one. -/
def condSkipFailRunner : Runner Nat :=
  ⟨⟨[], []⟩, [phaseACondSkip, phaseB3], none, none⟩

/-- A top-level `runAllSiblings` descriptor with a nested child. -/
def rasTop : List (Phase Nat) :=
  [.mk "all" false true none (some okAct) [.mk "b" false false none none []]]

/-- A nested `runAllSiblings` descriptor under a normal parent. -/
def rasNested : List (Phase Nat) :=
  [.mk "x" false false none none [.mk "g" false true none none []]]

/-- A runner whose only phase is top-level `runAllSiblings` with an
action. -/
def rasTopRunner : Runner Nat :=
  ⟨⟨[], []⟩, [.mk "all" false true none (some okAct) []], none, none⟩

/-- A nested `runAllSiblings` descriptor that also declares an action. -/
def phaseG : Phase Nat := .mk "g" false true none (some okAct) []

/-- Parent of `phaseG`. -/
def phaseX : Phase Nat := .mk "x" false false none (some okAct) [phaseG]

/-- Runner for the nested `runAllSiblings` guard example. -/
def nestedRasRunner : Runner Nat := ⟨⟨[], []⟩, [phaseX], none, none⟩

/-- Flattened node of `phaseX`. -/
def nodeX : PhaseRunner Nat := ⟨phaseX, "x", []⟩

/-- Flattened node of `phaseG`. -/
def nodeG : PhaseRunner Nat := ⟨phaseG, "x/g", ["x"]⟩

/-- All-true run flags of the nested guard example. -/
def flagsXG : List (String × Bool) := [("x", true), ("x/g", true)]

/-- Child with an action, under a condition-skipped parent. -/
def phaseY : Phase Nat := .mk "y" false false none (some okAct) []

/-- Parent phase skipped by its run condition. -/
def phaseXc : Phase Nat := .mk "x" false false (some condFalseFn) none [phaseY]

/-- Flattened node of `phaseXc`. -/
def nodeXc : PhaseRunner Nat := ⟨phaseXc, "x", []⟩

/-- Flattened node of `phaseY`. -/
def nodeYc : PhaseRunner Nat := ⟨phaseY, "x/y", ["x"]⟩

/-- All-true run flags of the condition-skip example. -/
def flagsXY : List (String × Bool) := [("x", true), ("x/y", true)]

/-- A factory returning a non-nil shared context and no error. -/
def goodFactory : List String → Option Nat × Option String :=
  fun _ => (some 7, none)

/-- A factory that fails, returning a nil data value with its error. -/
def errFactory : List String → Option Nat × Option String :=
  fun _ => (none, some "nope")

/-- A factory that successfully returns a nil context, as a Go
initializer returning `(nil, nil)` may. -/
def nilFactory : List String → Option Nat × Option String :=
  fun _ => (none, none)

/-- A factory that returns a NON-nil data value together with an error,
as a Go initializer returning a typed-nil pointer (a non-nil `RunData`
interface) on an error path does. -/
def errCachingFactory : List String → Option Nat × Option String :=
  fun _ => (some 5, some "nope")

/-- A runner that already cached a context. -/
def cachedRunner : Runner Nat := ⟨⟨[], []⟩, [], some goodFactory, some 7⟩

/-- A runner whose factory fails. -/
def errRunner : Runner Nat := ⟨⟨[], []⟩, [], some errFactory, none⟩

/-- A fresh runner with a registered factory. -/
def goodRunner : Runner Nat := ⟨⟨[], []⟩, [], some goodFactory, none⟩

/-- A fresh runner whose factory returns a nil context. -/
def nilFactoryRunner : Runner Nat := ⟨⟨[], []⟩, [], some nilFactory, none⟩

/-- A fresh runner whose factory returns a non-nil data value together
with an error. -/
def errCachingRunner : Runner Nat :=
  ⟨⟨[], []⟩, [], some errCachingFactory, none⟩

/-- A runner with no registered data initializer. -/
def bareRunner : Runner Nat := ⟨⟨[], []⟩, [phaseA3], none, none⟩

/-! ### Lemmas about the map model -/

theorem mapGet_set {α : Type} (m : List (String × α)) (k x : String) (v : α) :
    mapGet (mapSet m k v) x = if k = x then some v else mapGet m x := by
  induction m with
  | nil => simp [mapGet, mapSet]
  | cons kv rest ih =>
      obtain ⟨k', v'⟩ := kv
      by_cases hk : k' = k
      · subst hk
        simp only [mapSet, if_pos rfl, mapGet]
        by_cases hx : k' = x
        · subst hx; simp
        · simp [hx]
      · simp only [mapSet, if_neg hk, mapGet]
        by_cases hx : k' = x
        · subst hx
          have : ¬ k = k' := fun h => hk h.symm
          simp [this]
        · simp [hx, ih]

theorem mapGet_set_isSome {α : Type} (m : List (String × α)) (k x : String)
    (v : α) :
    (mapGet (mapSet m k v) x).isSome = (x = k ∨ (mapGet m x).isSome) := by
  rw [mapGet_set]
  by_cases h : k = x
  · subst h; simp
  · have : ¬ x = k := fun hx => h hx.symm
    simp [h, this]

theorem mapGet_setAllFalse (m : List (String × Bool)) (x : String) :
    mapGet (setAllFalse m) x = (mapGet m x).map (fun _ => false) := by
  induction m with
  | nil => simp [setAllFalse, mapGet]
  | cons kv rest ih =>
      obtain ⟨k, v⟩ := kv
      by_cases hx : k = x
      · subst hx; simp [setAllFalse, mapGet]
      · simp [setAllFalse, mapGet, hx] at ih ⊢
        exact ih

theorem mapGet_setAllTo_notMem (fl : List (String × Bool)) (xs : List String)
    (v : Bool) (x : String) (hx : x ∉ xs) :
    mapGet (setAllTo fl xs v) x = mapGet fl x := by
  induction xs generalizing fl with
  | nil => simp [setAllTo]
  | cons c cs ih =>
      have hxc : ¬ c = x := fun h => hx (h ▸ List.mem_cons_self c cs)
      have hxcs : x ∉ cs := fun h => hx (List.mem_cons_of_mem c h)
      simp only [setAllTo, List.foldl_cons]
      rw [show (cs.foldl (fun m c => mapSet m c v) (mapSet fl c v)) =
            setAllTo (mapSet fl c v) cs v from rfl] at *
      rw [ih (mapSet fl c v) hxcs, mapGet_set, if_neg hxc]

theorem mapGet_setAllTo_mem (fl : List (String × Bool)) (xs : List String)
    (v : Bool) (x : String) (hx : x ∈ xs) :
    mapGet (setAllTo fl xs v) x = some v := by
  induction xs generalizing fl with
  | nil => cases hx
  | cons c cs ih =>
      simp only [setAllTo, List.foldl_cons]
      rw [show (cs.foldl (fun m c => mapSet m c v) (mapSet fl c v)) =
            setAllTo (mapSet fl c v) cs v from rfl]
      by_cases hmem : x ∈ cs
      · exact ih (mapSet fl c v) hmem
      · have hxc : c = x := by
          rcases List.mem_cons.mp hx with h | h
          · exact h.symm
          · exact absurd h hmem
        rw [mapGet_setAllTo_notMem _ _ _ _ hmem, mapGet_set, if_pos hxc]

theorem mapGet_setAllTo_isSome (fl : List (String × Bool)) (xs : List String)
    (v : Bool) (x : String) :
    (mapGet (setAllTo fl xs v) x).isSome = (x ∈ xs ∨ (mapGet fl x).isSome) := by
  by_cases hx : x ∈ xs
  · rw [mapGet_setAllTo_mem fl xs v x hx]; simp [hx]
  · rw [mapGet_setAllTo_notMem fl xs v x hx]; simp [hx]

/-! ### The flattener is the pre-order traversal -/

mutual
/-- The accumulator-based flattener extends its accumulator by the
pre-order traversal of the subtree. -/
theorem addPhaseRunner_eq {δ : Type} (acc : List (PhaseRunner δ))
    (parent : Option (String × List String)) (p : Phase δ) :
    addPhaseRunner acc parent p = acc ++ preorderNodes parent p := by
  match p with
  | .mk n h ras ri r children =>
      rw [addPhaseRunner, preorderNodes]
      rw [addPhaseRunnerList_eq]
      simp

/-- The accumulator-based flattener of a forest extends its accumulator
by the pre-order traversal of the forest. -/
theorem addPhaseRunnerList_eq {δ : Type} (acc : List (PhaseRunner δ))
    (parent : Option (String × List String)) (cs : List (Phase δ)) :
    addPhaseRunnerList acc parent cs = acc ++ preorderList parent cs := by
  match cs with
  | [] => rw [addPhaseRunnerList, preorderList]; simp
  | c :: cs' =>
      rw [addPhaseRunnerList, preorderList]
      rw [addPhaseRunnerList_eq, addPhaseRunner_eq]
      simp
end

/-- Function `prepareForExecution` produces exactly the pre-order flattening. -/
theorem prepareForExecution_eq {δ : Type} (phases : List (Phase δ)) :
    prepareForExecution phases = preorderFlatten phases := by
  have go : ∀ (ps : List (Phase δ)) (acc : List (PhaseRunner δ)),
      ps.foldl
        (fun acc p =>
          if p.runAllSiblings then acc else addPhaseRunner acc none p)
        acc = acc ++ preorderFlatten ps := by
    intro ps
    induction ps with
    | nil => intro acc; simp [preorderFlatten]
    | cons p ps ih =>
        intro acc
        rw [List.foldl_cons]
        by_cases hras : p.runAllSiblings = true
        · rw [if_pos hras, ih]
          simp [preorderFlatten, hras]
        · rw [if_neg hras, ih, addPhaseRunner_eq]
          simp only [Bool.not_eq_true] at hras
          simp [preorderFlatten, hras, List.filter_cons]
  exact go phases []

/-! ### Ancestor-closedness and size of the flattened list -/

theorem childCtx_snd {δ : Type} (parent : Option (String × List String))
    (p : Phase δ) : (childCtx parent p).2 = ctxAncestors parent := by
  cases parent <;> rfl

theorem ancOK_mono {δ : Type} (rs : List (PhaseRunner δ)) :
    ∀ done done' : List String, (∀ a ∈ done, a ∈ done') →
      ancOK done rs → ancOK done' rs := by
  induction rs with
  | nil => intro done done' _ _; trivial
  | cons r rest ih =>
      intro done done' hsub h
      obtain ⟨h1, h2⟩ := h
      refine ⟨fun a ha => hsub a (h1 a ha), ?_⟩
      refine ih _ _ ?_ h2
      intro a ha
      rcases List.mem_cons.mp ha with h | h
      · exact h ▸ List.mem_cons_self _ _
      · exact List.mem_cons_of_mem _ (hsub a h)

theorem ancOK_append {δ : Type} (xs : List (PhaseRunner δ)) :
    ∀ (ys : List (PhaseRunner δ)) (done : List String), ancOK done xs →
      ancOK ((runnerNames xs).reverse ++ done) ys → ancOK done (xs ++ ys) := by
  induction xs with
  | nil => intro ys done _ h; simpa [runnerNames] using h
  | cons x xs ih =>
      intro ys done hx hy
      obtain ⟨h1, h2⟩ := hx
      refine ⟨h1, ?_⟩
      refine ih ys (x.generatedName :: done) h2 ?_
      have : (runnerNames (x :: xs)).reverse ++ done =
          (runnerNames xs).reverse ++ (x.generatedName :: done) := by
        simp [runnerNames]
      rw [this] at hy
      exact hy

mutual
/-- The pre-order traversal of a subtree is ancestor-closed when the
parent context's chain has already been emitted. -/
theorem preorderNodes_ancOK {δ : Type} (p : Phase δ)
    (parent : Option (String × List String)) (done : List String)
    (hp : ∀ a ∈ ctxAncestors parent, a ∈ done) :
    ancOK done (preorderNodes parent p) := by
  match p with
  | .mk n h ras ri r children =>
      rw [preorderNodes]
      refine ⟨by simpa [childCtx_snd] using hp, ?_⟩
      refine preorderList_ancOK children _ _ ?_
      intro a ha
      rcases List.mem_cons.mp (by simpa [ctxAncestors] using ha) with h | h
      · exact h ▸ List.mem_cons_self _ _
      · exact List.mem_cons_of_mem _ (hp a (by simpa [childCtx_snd] using h))

/-- The pre-order traversal of a forest is ancestor-closed when the
parent context's chain has already been emitted. -/
theorem preorderList_ancOK {δ : Type} (cs : List (Phase δ))
    (parent : Option (String × List String)) (done : List String)
    (hp : ∀ a ∈ ctxAncestors parent, a ∈ done) :
    ancOK done (preorderList parent cs) := by
  match cs with
  | [] => rw [preorderList]; trivial
  | c :: cs' =>
      rw [preorderList]
      refine ancOK_append _ _ _ (preorderNodes_ancOK c parent done hp) ?_
      refine preorderList_ancOK cs' parent _ ?_
      intro a ha
      exact List.mem_append_right _ (hp a ha)
end

/-- The execution list of any declared phase tree is ancestor-closed:
every ancestor name is emitted before its descendants. -/
theorem prepareForExecution_ancOK {δ : Type} (phases : List (Phase δ)) :
    ancOK [] (prepareForExecution phases) := by
  rw [prepareForExecution_eq]
  have go : ∀ (l : List (Phase δ)) (done : List String),
      ancOK done (l.foldr (fun p acc => preorderNodes none p ++ acc) []) := by
    intro l
    induction l with
    | nil => intro done; trivial
    | cons p ps ih =>
        intro done
        rw [List.foldr_cons]
        refine ancOK_append _ _ _
          (preorderNodes_ancOK p none done (by simp [ctxAncestors])) (ih _)
  exact go _ []

mutual
/-- A subtree flattens to one node per descriptor it contains. -/
theorem preorderNodes_length {δ : Type} (p : Phase δ)
    (parent : Option (String × List String)) :
    (preorderNodes parent p).length = descCount p := by
  match p with
  | .mk n h ras ri r children =>
      rw [preorderNodes, descCount]
      simp only [List.length_cons]
      rw [preorderList_length]
      omega

/-- A forest flattens to one node per descriptor it contains. -/
theorem preorderList_length {δ : Type} (cs : List (Phase δ))
    (parent : Option (String × List String)) :
    (preorderList parent cs).length = descCountList cs := by
  match cs with
  | [] => rw [preorderList, descCountList]; rfl
  | c :: cs' =>
      rw [preorderList, descCountList]
      rw [List.length_append, preorderNodes_length, preorderList_length]
end

/-! ### The first `computePhaseRunFlags` pass -/

theorem initFlagsHier_eq {δ : Type} (rs : List (PhaseRunner δ)) :
    initFlagsHier rs = (flagsFold [] rs, hierFold [] rs) := by
  have go : ∀ (l : List (PhaseRunner δ)) (fl : List (String × Bool))
      (hi : List (String × List String)),
      l.foldl
        (fun st p =>
          let fl := mapSet st.1 p.generatedName true
          let hi := mapSet st.2 p.generatedName []
          let hi := p.ancestors.foldl
            (fun h a => mapSet h a (mapGetD h a [] ++ [p.generatedName])) hi
          (fl, hi))
        (fl, hi) = (flagsFold fl l, hierFold hi l) := by
    intro l
    induction l with
    | nil => intro fl hi; simp [flagsFold, hierFold]
    | cons p rest ih =>
        intro fl hi
        rw [List.foldl_cons]
        rw [ih]
        simp [flagsFold, hierFold, hierStep, ancFold]
  exact go rs [] []

theorem mapGet_flagsFold {δ : Type} (rs : List (PhaseRunner δ)) :
    ∀ (fl : List (String × Bool)) (x : String),
      mapGet (flagsFold fl rs) x =
        if x ∈ runnerNames rs then some true else mapGet fl x := by
  induction rs with
  | nil => intro fl x; simp [flagsFold, runnerNames]
  | cons p rest ih =>
      intro fl x
      rw [show flagsFold fl (p :: rest) =
            flagsFold (mapSet fl p.generatedName true) rest from rfl]
      rw [ih]
      by_cases hrest : x ∈ runnerNames rest
      · have : x ∈ runnerNames (p :: rest) :=
          List.mem_cons_of_mem _ hrest
        simp [hrest, this]
      · rw [if_neg hrest, mapGet_set]
        by_cases hp : p.generatedName = x
        · have : x ∈ runnerNames (p :: rest) := by
            simp [runnerNames, hp.symm]
          simp [hp, this]
        · have : ¬ x ∈ runnerNames (p :: rest) := by
            simp only [runnerNames, List.map_cons, List.mem_cons]
            push_neg
            exact ⟨fun h => hp h.symm, by simpa [runnerNames] using hrest⟩
          simp [hp, this]

/-! ### Hierarchy map: soundness and completeness -/

theorem ancFold_preserve (nm : String) (ancs : List String) :
    ∀ (hi : List (String × List String)) (a n : String),
      n ∈ mapGetD hi a [] → n ∈ mapGetD (ancFold nm hi ancs) a [] := by
  induction ancs with
  | nil => intro hi a n h; simpa [ancFold] using h
  | cons b bs ih =>
      intro hi a n h
      rw [show ancFold nm hi (b :: bs) =
            ancFold nm (mapSet hi b (mapGetD hi b [] ++ [nm])) bs from rfl]
      refine ih _ a n ?_
      unfold mapGetD
      rw [mapGet_set]
      by_cases hb : b = a
      · subst hb
        simp only [if_pos rfl, Option.getD_some]
        exact List.mem_append_left _ h
      · simpa [hb, mapGetD] using h

theorem ancFold_insert (nm : String) (ancs : List String) :
    ∀ (hi : List (String × List String)) (a : String), a ∈ ancs →
      nm ∈ mapGetD (ancFold nm hi ancs) a [] := by
  induction ancs with
  | nil => intro hi a h; cases h
  | cons b bs ih =>
      intro hi a ha
      rw [show ancFold nm hi (b :: bs) =
            ancFold nm (mapSet hi b (mapGetD hi b [] ++ [nm])) bs from rfl]
      by_cases hbs : a ∈ bs
      · exact ih _ a hbs
      · have hab : b = a := by
          rcases List.mem_cons.mp ha with h | h
          · exact h.symm
          · exact absurd h hbs
        refine ancFold_preserve nm bs _ a nm ?_
        unfold mapGetD
        rw [mapGet_set, if_pos hab]
        simp

theorem ancFold_sound (nm : String) (ancs : List String) :
    ∀ (hi : List (String × List String)) (a n : String),
      n ∈ mapGetD (ancFold nm hi ancs) a [] →
      n ∈ mapGetD hi a [] ∨ (n = nm ∧ a ∈ ancs) := by
  induction ancs with
  | nil => intro hi a n h; exact Or.inl (by simpa [ancFold] using h)
  | cons b bs ih =>
      intro hi a n h
      rw [show ancFold nm hi (b :: bs) =
            ancFold nm (mapSet hi b (mapGetD hi b [] ++ [nm])) bs from rfl] at h
      rcases ih _ a n h with h1 | h1
      · unfold mapGetD at h1
        rw [mapGet_set] at h1
        by_cases hb : b = a
        · rw [if_pos hb] at h1
          simp only [Option.getD_some] at h1
          rcases List.mem_append.mp h1 with h2 | h2
          · exact Or.inl (hb ▸ h2)
          · have : n = nm := by simpa using h2
            exact Or.inr ⟨this, hb ▸ List.mem_cons_self _ _⟩
        · rw [if_neg hb] at h1
          exact Or.inl h1
      · exact Or.inr ⟨h1.1, List.mem_cons_of_mem _ h1.2⟩

theorem hierFold_preserve {δ : Type} (rs : List (PhaseRunner δ)) :
    ∀ (hi : List (String × List String)) (a n : String),
      (∀ q ∈ rs, q.generatedName ≠ a) →
      n ∈ mapGetD hi a [] → n ∈ mapGetD (hierFold hi rs) a [] := by
  induction rs with
  | nil => intro hi a n _ h; simpa [hierFold] using h
  | cons p rest ih =>
      intro hi a n hne h
      rw [show hierFold hi (p :: rest) = hierFold (hierStep hi p) rest from rfl]
      refine ih _ a n (fun q hq => hne q (List.mem_cons_of_mem _ hq)) ?_
      unfold hierStep
      refine ancFold_preserve _ _ _ a n ?_
      unfold mapGetD
      rw [mapGet_set, if_neg (hne p (List.mem_cons_self _ _))]
      exact h

theorem hierFold_sound {δ : Type} (rs : List (PhaseRunner δ)) :
    ∀ (hi : List (String × List String)) (a n : String),
      n ∈ mapGetD (hierFold hi rs) a [] →
      n ∈ mapGetD hi a [] ∨
        ∃ r ∈ rs, r.generatedName = n ∧ a ∈ r.ancestors := by
  induction rs with
  | nil => intro hi a n h; exact Or.inl (by simpa [hierFold] using h)
  | cons p rest ih =>
      intro hi a n h
      rw [show hierFold hi (p :: rest) = hierFold (hierStep hi p) rest
            from rfl] at h
      rcases ih _ a n h with h1 | h1
      · unfold hierStep at h1
        rcases ancFold_sound _ _ _ a n h1 with h2 | h2
        · unfold mapGetD at h2
          rw [mapGet_set] at h2
          by_cases hp : p.generatedName = a
          · rw [if_pos hp] at h2
            simp at h2
          · rw [if_neg hp] at h2
            exact Or.inl h2
        · exact Or.inr ⟨p, List.mem_cons_self _ _, h2.1.symm, h2.2⟩
      · obtain ⟨r, hr, h2⟩ := h1
        exact Or.inr ⟨r, List.mem_cons_of_mem _ hr, h2⟩

theorem hierFold_complete {δ : Type} (rs : List (PhaseRunner δ)) :
    ∀ (hi : List (String × List String)) (done : List String),
      ancOK done rs → (done ++ runnerNames rs).Nodup →
      ∀ r ∈ rs, ∀ a ∈ r.ancestors,
        r.generatedName ∈ mapGetD (hierFold hi rs) a [] := by
  induction rs with
  | nil => intro hi done _ _ r hr; cases hr
  | cons p rest ih =>
      intro hi done hanc hnd r hr a ha
      obtain ⟨hanc1, hanc2⟩ := hanc
      rw [show hierFold hi (p :: rest) = hierFold (hierStep hi p) rest
            from rfl]
      rcases List.mem_cons.mp hr with hrp | hrr
      · subst hrp
        have hadone : a ∈ done := hanc1 a ha
        have hdisj : done.Disjoint (runnerNames (r :: rest)) :=
          (List.nodup_append.mp hnd).2.2
        have hanrest : ∀ q ∈ rest, q.generatedName ≠ a := by
          intro q hq hqa
          exact hdisj hadone (by
            simp only [runnerNames, List.map_cons, List.mem_cons]
            exact Or.inr (by simpa [runnerNames, hqa] using
              List.mem_map_of_mem (fun r' => r'.generatedName) hq))
        refine hierFold_preserve rest _ a _ hanrest ?_
        unfold hierStep
        exact ancFold_insert _ _ _ a ha
      · have hperm : (done ++ runnerNames (p :: rest)).Perm
            ((p.generatedName :: done) ++ runnerNames rest) := by
          simp only [runnerNames, List.map_cons]
          exact List.perm_middle.trans (by rfl)
        exact ih _ (p.generatedName :: done) hanc2 (hperm.nodup hnd) r hrr a ha

/-- With distinct names and an ancestor-closed list, the hierarchy map
contains every node under each of its ancestors. -/
theorem hierInit_complete {δ : Type} (rs : List (PhaseRunner δ))
    (hnd : (runnerNames rs).Nodup) (hanc : ancOK [] rs) :
    ∀ r ∈ rs, ∀ a ∈ r.ancestors,
      r.generatedName ∈ mapGetD (hierFold [] rs) a [] :=
  hierFold_complete rs [] [] hanc (by simpa using hnd)

/-- Every hierarchy entry arises from some node having the key among its
ancestors. -/
theorem hierInit_sound {δ : Type} (rs : List (PhaseRunner δ))
    (a n : String) (h : n ∈ mapGetD (hierFold [] rs) a []) :
    ∃ r ∈ rs, r.generatedName = n ∧ a ∈ r.ancestors := by
  rcases hierFold_sound rs [] a n h with h1 | h1
  · simp [mapGetD, mapGet] at h1
  · exact h1

/-- Hierarchy entries are names of flattened nodes. -/
theorem hierInit_values {δ : Type} (rs : List (PhaseRunner δ))
    (a n : String) (h : n ∈ mapGetD (hierFold [] rs) a []) :
    n ∈ runnerNames rs := by
  obtain ⟨r, hr, hrn, _⟩ := hierInit_sound rs a n h
  exact hrn ▸ List.mem_map_of_mem _ hr

/-! ### The filter/skip loops -/

theorem applyList_mono (v : Bool) (hier : List (String × List String))
    (fs : List String) :
    ∀ (fl m : List (String × Bool)) (x : String),
      mapGet fl x = some v → applyList v hier fl fs = .ok m →
      mapGet m x = some v := by
  induction fs with
  | nil =>
      intro fl m x hx h
      rw [applyList] at h
      cases h
      exact hx
  | cons f fs' ih =>
      intro fl m x hx h
      rw [applyList] at h
      cases hf : mapGet fl f with
      | none => rw [hf] at h; cases h
      | some w =>
          rw [hf] at h
          refine ih _ m x ?_ h
          by_cases hmem : x ∈ mapGetD hier f []
          · exact mapGet_setAllTo_mem _ _ _ _ hmem
          · rw [mapGet_setAllTo_notMem _ _ _ _ hmem, mapGet_set]
            by_cases hfx : f = x
            · rw [if_pos hfx]
            · rw [if_neg hfx]; exact hx

theorem applyList_pos (v : Bool) (hier : List (String × List String))
    (fs : List String) :
    ∀ (fl m : List (String × Bool)) (x : String),
      applyList v hier fl fs = .ok m →
      (x ∈ fs ∨ ∃ f ∈ fs, x ∈ mapGetD hier f []) →
      mapGet m x = some v := by
  induction fs with
  | nil =>
      intro fl m x _ hx
      rcases hx with h | ⟨f, hf, _⟩
      · cases h
      · cases hf
  | cons f fs' ih =>
      intro fl m x h hx
      rw [applyList] at h
      cases hf : mapGet fl f with
      | none => rw [hf] at h; cases h
      | some w =>
          rw [hf] at h
          by_cases hrest : x ∈ fs' ∨ ∃ g ∈ fs', x ∈ mapGetD hier g []
          · exact ih _ m x h hrest
          · have hcur : x = f ∨ x ∈ mapGetD hier f [] := by
              rcases hx with h1 | ⟨g, hg, h1⟩
              · rcases List.mem_cons.mp h1 with h2 | h2
                · exact Or.inl h2
                · exact absurd (Or.inl h2) hrest
              · rcases List.mem_cons.mp hg with h2 | h2
                · exact Or.inr (h2 ▸ h1)
                · exact absurd (Or.inr ⟨g, h2, h1⟩) hrest
            refine applyList_mono v hier fs' _ m x ?_ h
            rcases hcur with h1 | h1
            · by_cases hmem : x ∈ mapGetD hier f []
              · exact mapGet_setAllTo_mem _ _ _ _ hmem
              · rw [mapGet_setAllTo_notMem _ _ _ _ hmem, mapGet_set,
                  if_pos h1.symm]
            · exact mapGet_setAllTo_mem _ _ _ _ h1

theorem applyList_frame (v : Bool) (hier : List (String × List String))
    (fs : List String) :
    ∀ (fl m : List (String × Bool)) (x : String),
      applyList v hier fl fs = .ok m → x ∉ fs →
      (∀ f ∈ fs, x ∉ mapGetD hier f []) →
      mapGet m x = mapGet fl x := by
  induction fs with
  | nil =>
      intro fl m x h _ _
      rw [applyList] at h
      cases h
      rfl
  | cons f fs' ih =>
      intro fl m x h hxf hxh
      rw [applyList] at h
      cases hf : mapGet fl f with
      | none => rw [hf] at h; cases h
      | some w =>
          rw [hf] at h
          have hxfs' : x ∉ fs' := fun hx => hxf (List.mem_cons_of_mem _ hx)
          have hxh' : ∀ g ∈ fs', x ∉ mapGetD hier g [] :=
            fun g hg => hxh g (List.mem_cons_of_mem _ hg)
          rw [ih _ m x h hxfs' hxh']
          rw [mapGet_setAllTo_notMem _ _ _ _ (hxh f (List.mem_cons_self _ _)),
            mapGet_set, if_neg (fun hfx : f = x =>
              hxf (hfx ▸ List.mem_cons_self _ _))]

theorem applyList_total (v : Bool) (hier : List (String × List String))
    (N : List String)
    (hval : ∀ g c, c ∈ mapGetD hier g [] → c ∈ N) (fs : List String) :
    ∀ fl : List (String × Bool),
      (∀ x, (mapGet fl x).isSome = (x ∈ N)) →
      (∀ f ∈ fs, f ∈ N) →
      ∃ m, applyList v hier fl fs = .ok m ∧
        ∀ x, (mapGet m x).isSome = (x ∈ N) := by
  induction fs with
  | nil =>
      intro fl hkeys _
      exact ⟨fl, by rw [applyList], hkeys⟩
  | cons f fs' ih =>
      intro fl hkeys hfs
      have hfN : f ∈ N := hfs f (List.mem_cons_self _ _)
      have hfsome : (mapGet fl f).isSome = true := by
        rw [hkeys f]; simp [hfN]
      obtain ⟨w, hw⟩ := Option.isSome_iff_exists.mp hfsome
      have hkeys' : ∀ x,
          (mapGet (setAllTo (mapSet fl f v) (mapGetD hier f []) v) x).isSome =
            (x ∈ N) := by
        intro x
        rw [mapGet_setAllTo_isSome, mapGet_set_isSome]
        by_cases hmem : x ∈ mapGetD hier f []
        · simp [hmem, hval f x hmem]
        · by_cases hfx : x = f
          · simp [hmem, hfx, hfN]
          · simp [hmem, hfx, hkeys x]
      obtain ⟨m, hm, hmk⟩ :=
        ih _ hkeys' (fun g hg => hfs g (List.mem_cons_of_mem _ hg))
      exact ⟨m, by rw [applyList, hw]; exact hm, hmk⟩

theorem applyList_unknown (v : Bool) (hier : List (String × List String))
    (N : List String)
    (hval : ∀ g c, c ∈ mapGetD hier g [] → c ∈ N) (fs : List String) :
    ∀ fl : List (String × Bool),
      (∀ x, (mapGet fl x).isSome = (x ∈ N)) →
      (∃ f ∈ fs, f ∉ N) →
      ∃ g ∈ fs, g ∉ N ∧
        applyList v hier fl fs = .error (unknownPhaseMsg g) := by
  induction fs with
  | nil =>
      intro fl _ hex
      obtain ⟨f, hf, _⟩ := hex
      cases hf
  | cons f fs' ih =>
      intro fl hkeys hex
      by_cases hfN : f ∈ N
      · have hfsome : (mapGet fl f).isSome = true := by
          rw [hkeys f]; simp [hfN]
        obtain ⟨w, hw⟩ := Option.isSome_iff_exists.mp hfsome
        have hex' : ∃ g ∈ fs', g ∉ N := by
          obtain ⟨g, hg, hgN⟩ := hex
          rcases List.mem_cons.mp hg with h | h
          · exact absurd (h ▸ hfN) hgN
          · exact ⟨g, h, hgN⟩
        have hkeys' : ∀ x,
            (mapGet (setAllTo (mapSet fl f v) (mapGetD hier f []) v) x).isSome
              = (x ∈ N) := by
          intro x
          rw [mapGet_setAllTo_isSome, mapGet_set_isSome]
          by_cases hmem : x ∈ mapGetD hier f []
          · simp [hmem, hval f x hmem]
          · by_cases hfx : x = f
            · simp [hmem, hfx, hfN]
            · simp [hmem, hfx, hkeys x]
        obtain ⟨g, hg, hgN, hres⟩ := ih _ hkeys' hex'
        exact ⟨g, List.mem_cons_of_mem _ hg, hgN,
          by rw [applyList, hw]; exact hres⟩
      · have hfnone : mapGet fl f = none := by
          have := hkeys f
          simp only [hfN] at this
          simpa using Option.not_isSome_iff_eq_none.mp (by
            rw [this]; simp)
        exact ⟨f, List.mem_cons_self _ _, hfN, by rw [applyList, hfnone]⟩

/-! ### `computePhaseRunFlags`: structure of a successful run -/

theorem computePhaseRunFlags_ok_elim {δ : Type} (rs : List (PhaseRunner δ))
    (opts : RunnerOptions) (m : List (String × Bool))
    (hok : computePhaseRunFlags rs opts = .ok m) :
    ∃ fl₁, applyList false (hierFold [] rs) fl₁ opts.skipPhases = .ok m ∧
      ((opts.filterPhases.isEmpty = true ∧ fl₁ = flagsFold [] rs) ∨
        (opts.filterPhases.isEmpty = false ∧
          applyList true (hierFold [] rs) (setAllFalse (flagsFold [] rs))
            opts.filterPhases = .ok fl₁)) := by
  simp only [computePhaseRunFlags, initFlagsHier_eq, applyFilter,
    applySkip] at hok
  by_cases hemp : opts.filterPhases.isEmpty = true
  · rw [if_pos hemp] at hok
    exact ⟨flagsFold [] rs, hok, Or.inl ⟨hemp, rfl⟩⟩
  · rw [if_neg hemp] at hok
    cases hfil : applyList true (hierFold [] rs)
        (setAllFalse (flagsFold [] rs)) opts.filterPhases with
    | error e =>
        rw [hfil] at hok
        cases hok
    | ok fl₁ =>
        rw [hfil] at hok
        exact ⟨fl₁, hok, Or.inr ⟨eq_false_of_ne_true hemp, rfl⟩⟩

/-- C1: skip always wins over filter — in any run-flag map successfully
computed from any phase tree (with the spec's well-formedness condition
that generated names are unique) and any options, every name listed in
`SkipPhases` has flag `false`, and so does every flattened node that has
such a name among its ancestors, regardless of `FilterPhases`. -/
theorem skip_always_wins {δ : Type} (phases : List (Phase δ))
    (opts : RunnerOptions) (m : List (String × Bool))
    (hnd : (runnerNames (prepareForExecution phases)).Nodup)
    (hok : computePhaseRunFlags (prepareForExecution phases) opts = .ok m)
    (f : String) (hf : f ∈ opts.skipPhases) :
    mapGet m f = some false ∧
    ∀ r ∈ prepareForExecution phases, f ∈ r.ancestors →
      mapGet m r.generatedName = some false := by
  obtain ⟨fl₁, hsk, _⟩ := computePhaseRunFlags_ok_elim _ opts m hok
  constructor
  · exact applyList_pos false _ _ _ m f hsk (Or.inl hf)
  · intro r hr ha
    have hmem : r.generatedName ∈
        mapGetD (hierFold [] (prepareForExecution phases)) f [] :=
      hierInit_complete _ hnd (prepareForExecution_ancOK phases) r hr f ha
    exact applyList_pos false _ _ _ m _ hsk (Or.inr ⟨f, hf, hmem⟩)

/-- C2: filter inclusion propagates down — when `FilterPhases` is
non-empty and `SkipPhases` empty, a successfully computed run-flag map
(over a tree with unique generated names) is `true` exactly on the
listed nodes and their descendants, `false` on every other node. -/
theorem filter_inclusion_propagates {δ : Type} (phases : List (Phase δ))
    (opts : RunnerOptions) (m : List (String × Bool))
    (hnd : (runnerNames (prepareForExecution phases)).Nodup)
    (hne : opts.filterPhases ≠ []) (hskip : opts.skipPhases = [])
    (hok : computePhaseRunFlags (prepareForExecution phases) opts = .ok m) :
    ∀ r ∈ prepareForExecution phases,
      mapGet m r.generatedName =
        some (opts.filterPhases.contains r.generatedName ||
          r.ancestors.any (fun a => opts.filterPhases.contains a)) := by
  obtain ⟨fl₁, hsk, hcase⟩ := computePhaseRunFlags_ok_elim _ opts m hok
  rcases hcase with ⟨hemp, _⟩ | ⟨_, hfil⟩
  · exact absurd (List.isEmpty_iff.mp hemp) hne
  · rw [hskip, applyList] at hsk
    cases hsk
    intro r hr
    by_cases hP : r.generatedName ∈ opts.filterPhases ∨
        ∃ a ∈ r.ancestors, a ∈ opts.filterPhases
    · have htrue : mapGet m r.generatedName = some true := by
        rcases hP with h1 | ⟨a, ha, haf⟩
        · exact applyList_pos true _ _ _ m _ hfil (Or.inl h1)
        · have hmem : r.generatedName ∈
              mapGetD (hierFold [] (prepareForExecution phases)) a [] :=
            hierInit_complete _ hnd (prepareForExecution_ancOK phases) r hr
              a ha
          exact applyList_pos true _ _ _ m _ hfil (Or.inr ⟨a, haf, hmem⟩)
      rw [htrue]
      have hb : (opts.filterPhases.contains r.generatedName ||
          r.ancestors.any (fun a => opts.filterPhases.contains a)) = true := by
        rcases hP with h1 | ⟨a, ha, haf⟩
        · refine Bool.or_eq_true_iff.mpr (Or.inl ?_)
          simpa using h1
        · refine Bool.or_eq_true_iff.mpr (Or.inr ?_)
          exact List.any_eq_true.mpr ⟨a, ha, by simpa using haf⟩
      rw [hb]
    · push_neg at hP
      obtain ⟨hP1, hP2⟩ := hP
      have hhier : ∀ g ∈ opts.filterPhases,
          r.generatedName ∉
            mapGetD (hierFold [] (prepareForExecution phases)) g [] := by
        intro g hg hmem
        obtain ⟨r', hr', hrn, hga⟩ := hierInit_sound _ g _ hmem
        have : r' = r :=
          List.inj_on_of_nodup_map hnd hr' hr hrn
        exact absurd hg (by
          have := hP2 g (this ▸ hga)
          exact this)
      have hframe : mapGet m r.generatedName =
          mapGet (setAllFalse (flagsFold [] (prepareForExecution phases)))
            r.generatedName :=
        applyList_frame true _ _ _ m _ hfil hP1 hhier
      rw [hframe, mapGet_setAllFalse, mapGet_flagsFold]
      have hmemn : r.generatedName ∈ runnerNames (prepareForExecution phases) :=
        List.mem_map_of_mem _ hr
      rw [if_pos hmemn]
      have hb : (opts.filterPhases.contains r.generatedName ||
          r.ancestors.any (fun a => opts.filterPhases.contains a)) = false := by
        refine Bool.or_eq_false_iff.mpr ⟨?_, ?_⟩
        · simpa using hP1
        · refine List.any_eq_false.mpr ?_
          intro a ha
          simpa using hP2 a ha
      rw [hb]
      rfl

/-! ### Unknown phase names -/

theorem flagsFold_keys {δ : Type} (rs : List (PhaseRunner δ)) (x : String) :
    (mapGet (flagsFold [] rs) x).isSome = (x ∈ runnerNames rs) := by
  rw [mapGet_flagsFold]
  by_cases hx : x ∈ runnerNames rs
  · simp [hx]
  · simp [hx, mapGet]

theorem setAllFalse_keys (fl : List (String × Bool)) (x : String) :
    (mapGet (setAllFalse fl) x).isSome = (mapGet fl x).isSome := by
  rw [mapGet_setAllFalse]
  cases mapGet fl x <;> simp

theorem computePhaseRunFlags_unknown {δ : Type} (rs : List (PhaseRunner δ))
    (opts : RunnerOptions)
    (hex : ∃ f ∈ opts.filterPhases ++ opts.skipPhases, f ∉ runnerNames rs) :
    ∃ g ∈ opts.filterPhases ++ opts.skipPhases, g ∉ runnerNames rs ∧
      computePhaseRunFlags rs opts = .error (unknownPhaseMsg g) := by
  have hval : ∀ g c, c ∈ mapGetD (hierFold [] rs) g [] → c ∈ runnerNames rs :=
    fun g c h => hierInit_values rs g c h
  by_cases hemp : opts.filterPhases.isEmpty = true
  · have hfe : opts.filterPhases = [] := List.isEmpty_iff.mp hemp
    obtain ⟨f, hf, hfN⟩ := hex
    rw [hfe, List.nil_append] at hf
    obtain ⟨g, hg, hgN, herr⟩ :=
      applyList_unknown false (hierFold [] rs) (runnerNames rs) hval
        opts.skipPhases (flagsFold [] rs) (flagsFold_keys rs) ⟨f, hf, hfN⟩
    refine ⟨g, ?_, hgN, ?_⟩
    · rw [hfe, List.nil_append]; exact hg
    · simp only [computePhaseRunFlags, initFlagsHier_eq, applyFilter,
        applySkip]
      rw [if_pos hemp]
      exact herr
  · by_cases hfu : ∃ f ∈ opts.filterPhases, f ∉ runnerNames rs
    · have hkeys : ∀ x,
          (mapGet (setAllFalse (flagsFold [] rs)) x).isSome =
            (x ∈ runnerNames rs) := by
        intro x
        rw [setAllFalse_keys, flagsFold_keys]
      obtain ⟨g, hg, hgN, herr⟩ :=
        applyList_unknown true (hierFold [] rs) (runnerNames rs) hval
          opts.filterPhases (setAllFalse (flagsFold [] rs)) hkeys hfu
      refine ⟨g, List.mem_append_left _ hg, hgN, ?_⟩
      simp only [computePhaseRunFlags, initFlagsHier_eq, applyFilter,
        applySkip]
      rw [if_neg hemp, herr]
    · push_neg at hfu
      obtain ⟨f, hf, hfN⟩ := hex
      have hfsk : f ∈ opts.skipPhases := by
        rcases List.mem_append.mp hf with h | h
        · exact absurd (hfu f h) hfN
        · exact h
      have hkeys : ∀ x,
          (mapGet (setAllFalse (flagsFold [] rs)) x).isSome =
            (x ∈ runnerNames rs) := by
        intro x
        rw [setAllFalse_keys, flagsFold_keys]
      obtain ⟨fl₁, hfl₁, hkeys₁⟩ :=
        applyList_total true (hierFold [] rs) (runnerNames rs) hval
          opts.filterPhases (setAllFalse (flagsFold [] rs)) hkeys hfu
      obtain ⟨g, hg, hgN, herr⟩ :=
        applyList_unknown false (hierFold [] rs) (runnerNames rs) hval
          opts.skipPhases fl₁ hkeys₁ ⟨f, hfsk, hfN⟩
      refine ⟨g, List.mem_append_right _ hg, hgN, ?_⟩
      simp only [computePhaseRunFlags, initFlagsHier_eq, applyFilter,
        applySkip]
      rw [if_neg hemp, hfl₁]
      exact herr

/-- C7: an unknown name in `FilterPhases` or `SkipPhases` makes `Run`
fail with the unknown-phase error before anything executes: the runner
state is untouched, no run condition is evaluated and no action is
invoked (both traces are empty). -/
theorem unknown_phase_rejected {δ : Type} (e : Runner δ) (args : List String)
    (f : String) (hf : f ∈ e.options.filterPhases ++ e.options.skipPhases)
    (hunk : f ∉ runnerNames (prepareForExecution e.phases)) :
    ∃ g ∈ e.options.filterPhases ++ e.options.skipPhases,
      g ∉ runnerNames (prepareForExecution e.phases) ∧
      e.run args = (e, ([], [], some (unknownPhaseMsg g))) := by
  obtain ⟨g, hg, hgN, herr⟩ :=
    computePhaseRunFlags_unknown (prepareForExecution e.phases) e.options
      ⟨f, hf, hunk⟩
  refine ⟨g, hg, hgN, ?_⟩
  simp only [Runner.run]
  rw [herr]

/-! ### Executor lemmas -/

theorem runPhases_cons_error {δ : Type} (data : Option δ)
    (flags : List (String × Bool)) (p : PhaseRunner δ)
    (rest : List (PhaseRunner δ)) (c a : List String) (msg : String)
    (h : visitNode data flags p = (c, a, some msg)) :
    runPhases data flags (p :: rest) = (c, a, some msg) := by
  simp [runPhases, h]

theorem runPhases_cons_ok {δ : Type} (data : Option δ)
    (flags : List (String × Bool)) (p : PhaseRunner δ)
    (rest : List (PhaseRunner δ)) (c a : List String)
    (h : visitNode data flags p = (c, a, none)) :
    runPhases data flags (p :: rest) =
      (c ++ (runPhases data flags rest).1,
        a ++ (runPhases data flags rest).2.1,
        (runPhases data flags rest).2.2) := by
  simp [runPhases, h]

theorem runPhases_append_ok {δ : Type} (data : Option δ)
    (flags : List (String × Bool)) :
    ∀ (L₁ L₂ : List (PhaseRunner δ)) (c a : List String),
      runPhases data flags L₁ = (c, a, none) →
      runPhases data flags (L₁ ++ L₂) =
        (c ++ (runPhases data flags L₂).1,
          a ++ (runPhases data flags L₂).2.1,
          (runPhases data flags L₂).2.2) := by
  intro L₁
  induction L₁ with
  | nil =>
      intro L₂ c a h
      simp only [runPhases, Prod.mk.injEq] at h
      obtain ⟨h1, h2, -⟩ := h
      subst h1
      subst h2
      simp
  | cons p rest ih =>
      intro L₂ c a h
      cases hv2 : (visitNode data flags p).2.2 with
      | some m =>
          have hv : visitNode data flags p =
              ((visitNode data flags p).1, (visitNode data flags p).2.1,
                some m) := by
            rw [← hv2]
          rw [runPhases_cons_error data flags p rest _ _ m hv] at h
          cases h
      | none =>
          have hv : visitNode data flags p =
              ((visitNode data flags p).1, (visitNode data flags p).2.1,
                none) := by
            rw [← hv2]
          rw [runPhases_cons_ok data flags p rest _ _ hv] at h
          have herr : (runPhases data flags rest).2.2 = none :=
            congrArg (fun x => x.2.2) h
          have hrest : runPhases data flags rest =
              ((runPhases data flags rest).1,
                (runPhases data flags rest).2.1, none) := by
            rw [← herr]
          have := ih L₂ (runPhases data flags rest).1
            (runPhases data flags rest).2.1 hrest
          rw [List.cons_append, runPhases_cons_ok data flags p _ _ _ hv, this]
          have hc : c = (visitNode data flags p).1 ++
              (runPhases data flags rest).1 :=
            (congrArg Prod.fst h).symm
          have ha : a = (visitNode data flags p).2.1 ++
              (runPhases data flags rest).2.1 :=
            (congrArg (fun x => x.2.1) h).symm
          rw [hc, ha]
          simp

theorem runPhases_append_error {δ : Type} (data : Option δ)
    (flags : List (String × Bool)) :
    ∀ (L₁ L₂ : List (PhaseRunner δ)) (c a : List String) (msg : String),
      runPhases data flags L₁ = (c, a, some msg) →
      runPhases data flags (L₁ ++ L₂) = (c, a, some msg) := by
  intro L₁
  induction L₁ with
  | nil =>
      intro L₂ c a msg h
      simp only [runPhases] at h
      cases h
  | cons p rest ih =>
      intro L₂ c a msg h
      cases hv2 : (visitNode data flags p).2.2 with
      | some m =>
          have hv : visitNode data flags p =
              ((visitNode data flags p).1, (visitNode data flags p).2.1,
                some m) := by
            rw [← hv2]
          rw [runPhases_cons_error data flags p rest _ _ m hv] at h
          rw [List.cons_append, runPhases_cons_error data flags p _ _ _ m hv]
          exact h
      | none =>
          have hv : visitNode data flags p =
              ((visitNode data flags p).1, (visitNode data flags p).2.1,
                none) := by
            rw [← hv2]
          rw [runPhases_cons_ok data flags p rest _ _ hv] at h
          have herr : (runPhases data flags rest).2.2 = some msg :=
            congrArg (fun x => x.2.2) h
          have hrest : runPhases data flags rest =
              ((runPhases data flags rest).1,
                (runPhases data flags rest).2.1, some msg) := by
            rw [← herr]
          rw [List.cons_append, runPhases_cons_ok data flags p _ _ _ hv,
            ih L₂ _ _ msg hrest]
          have hc : c = (visitNode data flags p).1 ++
              (runPhases data flags rest).1 :=
            (congrArg Prod.fst h).symm
          have ha : a = (visitNode data flags p).2.1 ++
              (runPhases data flags rest).2.1 :=
            (congrArg (fun x => x.2.1) h).symm
          rw [hc, ha]

theorem visitNode_not_flagged {δ : Type} (data : Option δ)
    (flags : List (String × Bool)) (p : PhaseRunner δ)
    (h : mapGet flags p.generatedName ≠ some true) :
    visitNode data flags p = ([], [], none) := by
  unfold visitNode
  cases hf : mapGet flags p.generatedName with
  | none => rfl
  | some b =>
      cases b with
      | false => rfl
      | true => exact absurd hf h

theorem visitNode_ras_guard {δ : Type} (data : Option δ)
    (flags : List (String × Bool)) (p : PhaseRunner δ)
    (hflag : mapGet flags p.generatedName = some true)
    (hras : p.phase.runAllSiblings = true)
    (hfun : (p.phase.runIf.isSome || p.phase.run.isSome) = true) :
    visitNode data flags p =
      ([], [], some (runAllSiblingsMsg p.generatedName)) := by
  unfold visitNode
  rw [hflag]
  simp [hras, hfun]

theorem visitNode_cond_false {δ : Type} (data : Option δ)
    (flags : List (String × Bool)) (p : PhaseRunner δ)
    (cnd : Option δ → Except String Bool)
    (hflag : mapGet flags p.generatedName = some true)
    (hras : p.phase.runAllSiblings = false)
    (hri : p.phase.runIf = some cnd) (hc : cnd data = .ok false) :
    visitNode data flags p = ([p.generatedName], [], none) := by
  unfold visitNode
  rw [hflag]
  simp [hras, hri, hc]

theorem visitNode_action_error {δ : Type} (data : Option δ)
    (flags : List (String × Bool)) (p : PhaseRunner δ)
    (act : Option δ → Option String) (msg : String)
    (hflag : mapGet flags p.generatedName = some true)
    (hras : p.phase.runAllSiblings = false)
    (hcond : condPass data p = true)
    (hact : p.phase.run = some act) (herr : act data = some msg) :
    visitNode data flags p =
      (condMark p, [p.generatedName],
        some (actionWrapMsg p.generatedName msg)) := by
  unfold visitNode
  rw [hflag]
  cases hri : p.phase.runIf with
  | none => simp [hras, hri, hact, herr, condMark]
  | some cnd =>
      have hpc : condPass data p =
          (match cnd data with | .ok true => true | _ => false) := by
        unfold condPass
        rw [hri]
      have hc : cnd data = .ok true := by
        rw [hpc] at hcond
        cases hcd : cnd data with
        | error e => simp [hcd] at hcond
        | ok b =>
            cases b with
            | false => simp [hcd] at hcond
            | true => rfl
      simp [hras, hri, hc, hact, herr, condMark]

theorem visitNode_ok_actions {δ : Type} (data : Option δ)
    (flags : List (String × Bool)) (p : PhaseRunner δ)
    (h : (visitNode data flags p).2.2 = none) :
    (visitNode data flags p).2.1 =
      if wouldRunAction data flags p then [p.generatedName] else [] := by
  unfold visitNode at h ⊢
  unfold wouldRunAction flagOn condPass
  cases hflag : mapGet flags p.generatedName with
  | none => simp
  | some b =>
      cases b with
      | false => simp
      | true =>
          rw [hflag] at h
          by_cases hg : (p.phase.runAllSiblings &&
              (p.phase.runIf.isSome || p.phase.run.isSome)) = true
          · rw [if_pos hg] at h
            cases h
          · rw [if_neg hg] at h
            rw [if_neg hg]
            cases hri : p.phase.runIf with
            | none =>
                cases hact : p.phase.run with
                | none => simp [hri, hact]
                | some act =>
                    have hras : p.phase.runAllSiblings = false := by
                      rw [hri, hact] at hg
                      simpa using hg
                    cases hae : act data with
                    | none => simp [hri, hact, hae, hras]
                    | some m => simp [hri, hact, hae] at h
            | some cnd =>
                have hras : p.phase.runAllSiblings = false := by
                  rw [hri] at hg
                  simpa using hg
                cases hcd : cnd data with
                | error e => simp [hri, hcd] at h
                | ok bb =>
                    cases bb with
                    | false => simp [hri, hcd, hras]
                    | true =>
                        cases hact : p.phase.run with
                        | none => simp [hri, hcd, hact, hras]
                        | some act =>
                            cases hae : act data with
                            | none => simp [hri, hcd, hact, hae, hras]
                            | some m => simp [hri, hact, hcd, hae] at h

/-- On a successful visit of a node list, the action trace is exactly the
name of every node whose flag is on, that is not `runAllSiblings`, whose
condition passes, and that declares an action — each exactly once, in
list order. -/
theorem runPhases_ok_actions {δ : Type} (data : Option δ)
    (flags : List (String × Bool)) :
    ∀ (L : List (PhaseRunner δ)) (c a : List String),
      runPhases data flags L = (c, a, none) →
      a = (L.filter (wouldRunAction data flags)).map
        (fun r => r.generatedName) := by
  intro L
  induction L with
  | nil =>
      intro c a h
      simp only [runPhases, Prod.mk.injEq] at h
      obtain ⟨-, h2, -⟩ := h
      rw [← h2]
      simp
  | cons p rest ih =>
      intro c a h
      cases hv2 : (visitNode data flags p).2.2 with
      | some m =>
          have hv : visitNode data flags p =
              ((visitNode data flags p).1, (visitNode data flags p).2.1,
                some m) := by
            rw [← hv2]
          rw [runPhases_cons_error data flags p rest _ _ m hv] at h
          cases h
      | none =>
          have hv : visitNode data flags p =
              ((visitNode data flags p).1, (visitNode data flags p).2.1,
                none) := by
            rw [← hv2]
          rw [runPhases_cons_ok data flags p rest _ _ hv] at h
          have herr : (runPhases data flags rest).2.2 = none :=
            congrArg (fun x => x.2.2) h
          have hrest : runPhases data flags rest =
              ((runPhases data flags rest).1,
                (runPhases data flags rest).2.1, none) := by
            rw [← herr]
          have ha : a = (visitNode data flags p).2.1 ++
              (runPhases data flags rest).2.1 :=
            (congrArg (fun x => x.2.1) h).symm
          rw [ha, visitNode_ok_actions data flags p hv2,
            ih _ _ hrest, List.filter_cons]
          by_cases hw : wouldRunAction data flags p = true
          · simp [hw]
          · simp [hw]

/-- When the run flags compute and the shared data initializes, `Run`
is exactly the executor applied to the flattened node list. -/
theorem run_ok_elim {δ : Type} (e : Runner δ) (args : List String)
    (flags : List (String × Bool)) (e1 : Runner δ) (data : Option δ)
    (k : Nat)
    (hok : computePhaseRunFlags (prepareForExecution e.phases) e.options =
      .ok flags)
    (hinit : initData e args = (e1, .ok data, k)) :
    e.run args = (e1, runPhases data flags (prepareForExecution e.phases)) := by
  simp [Runner.run, hok, hinit]

/-- C3: the flattened node list is the pre-order traversal of the
declared tree — every node is immediately followed by the flattened
subtrees of its own children, in order, before any later sibling — and
`Run` hands exactly this list, in this order, to the sequential
executor. -/
theorem preorder_flattening_invariant {δ : Type} :
    (∀ phases : List (Phase δ),
      prepareForExecution phases = preorderFlatten phases) ∧
    (∀ (e : Runner δ) (args : List String) (flags : List (String × Bool))
        (e1 : Runner δ) (data : Option δ) (k : Nat),
      computePhaseRunFlags (prepareForExecution e.phases) e.options =
        .ok flags →
      initData e args = (e1, .ok data, k) →
      e.run args = (e1, runPhases data flags (preorderFlatten e.phases))) := by
  constructor
  · exact prepareForExecution_eq
  · intro e args flags e1 data k hok hinit
    rw [← prepareForExecution_eq]
    exact run_ok_elim e args flags e1 data k hok hinit

/-- Witness for C3 on the tree `A{B,C{D}}`. -/
theorem preorder_flattening_invariant_witness :
    prepareForExecution [phaseTreeA] = preorderFlatten [phaseTreeA] ∧
    runnerA.run [] =
      (runnerA, runPhases none flagsA (preorderFlatten runnerA.phases)) :=
  ⟨(preorder_flattening_invariant (δ := Nat)).1 [phaseTreeA],
    (preorder_flattening_invariant (δ := Nat)).2 runnerA [] flagsA runnerA
      none 0 rfl rfl⟩

/-- C4 (counterexample): the flattener does NOT treat `runAllSiblings`
descriptors as claimed.  A top-level `runAllSiblings` descriptor is
dropped without descending into its children (`rasTop` flattens to
nothing although it contains the non-`runAllSiblings` child `b`), while
a nested `runAllSiblings` descriptor does get flattened into a node
(`rasNested` yields a node `x/g` for the `runAllSiblings` descriptor
`g`). -/
theorem runAllSiblings_flattening_cx :
    (prepareForExecution rasTop).map (fun r => r.generatedName) = [] ∧
    (prepareForExecution rasNested).map (fun r => r.generatedName) =
      ["x", "x/g"] := by
  constructor
  · decide
  · decide

/-- C4 (amended): flattening drops top-level `runAllSiblings`
descriptors together with their whole subtrees and creates exactly one
node for every descriptor of every remaining subtree, nested
`runAllSiblings` descriptors included. -/
theorem runAllSiblings_flattening_amended {δ : Type}
    (phases : List (Phase δ)) :
    (prepareForExecution phases).length =
      descCountList (phases.filter (fun p => !p.runAllSiblings)) := by
  rw [prepareForExecution_eq]
  unfold preorderFlatten
  generalize (phases.filter fun p => !p.runAllSiblings) = l
  induction l with
  | nil => rfl
  | cons c cs ih =>
      rw [List.foldr_cons, List.length_append, preorderNodes_length,
        descCountList, ih]

/-- C5 (counterexample): it is not true that the actions of ALL
run-flagged nodes preceding the failing node are invoked.  In
`condSkipFailRunner`, node `a` is run-flagged (its flag is `true` in the
computed map), precedes the failing node `b`, and declares an action,
yet the action trace of the run is `["b"]`: `a`'s action was invoked
zero times because its run condition returned `(false, nil)`. -/
theorem fail_fast_abort_cx :
    (condSkipFailRunner.run []).2 =
      (["a"], ["b"], some "error execution phase b: boom") ∧
    computePhaseRunFlags (prepareForExecution condSkipFailRunner.phases)
      condSkipFailRunner.options = .ok [("a", true), ("b", true)] ∧
    condSkipFailRunner.phases.map (fun p => p.run.isSome) = [true, true] :=
  ⟨rfl, rfl, rfl⟩

/-- C5 (amended): fail-fast abort.  If the nodes before `n` complete
without error, `n` is run-flagged, passes its condition, and its action
errors, then `Run` stops at `n`: the action trace is exactly the
previously invoked actions plus `n` itself (each invoked exactly once —
the trace of the successful prefix lists precisely the run-flagged,
condition-passing, action-bearing nodes of that prefix, in order), no
later node is touched, and the returned error wraps the underlying error
with `n`'s `generatedName`. -/
theorem fail_fast_abort_amended {δ : Type} (e : Runner δ)
    (args : List String) (flags : List (String × Bool)) (e1 : Runner δ)
    (data : Option δ) (k : Nat) (L₁ L₂ : List (PhaseRunner δ))
    (n : PhaseRunner δ) (c a : List String)
    (act : Option δ → Option String) (msg : String)
    (hok : computePhaseRunFlags (prepareForExecution e.phases) e.options =
      .ok flags)
    (hinit : initData e args = (e1, .ok data, k))
    (hsplit : prepareForExecution e.phases = L₁ ++ n :: L₂)
    (hpre : runPhases data flags L₁ = (c, a, none))
    (hflag : mapGet flags n.generatedName = some true)
    (hras : n.phase.runAllSiblings = false)
    (hcond : condPass data n = true)
    (hact : n.phase.run = some act) (herr : act data = some msg) :
    e.run args =
      (e1, (c ++ condMark n, a ++ [n.generatedName],
        some (actionWrapMsg n.generatedName msg))) ∧
    a = (L₁.filter (wouldRunAction data flags)).map
      (fun r => r.generatedName) := by
  constructor
  · rw [run_ok_elim e args flags e1 data k hok hinit, hsplit]
    have hv := visitNode_action_error data flags n act msg hflag hras hcond
      hact herr
    have hmid := runPhases_cons_error data flags n L₂ _ _ _ hv
    rw [runPhases_append_ok data flags L₁ (n :: L₂) c a hpre, hmid]
  · exact runPhases_ok_actions data flags L₁ c a hpre

/-- Witness for amended C5 on the spec's example `a,b,c` with `b`
failing: `a`'s action ran exactly once, `b`'s ran exactly once and
failed, `c` never ran, and the error names `b`. -/
theorem fail_fast_abort_amended_witness :
    failFastRunner.run [] =
      (failFastRunner,
        ([] ++ condMark nodeB3, ["a"] ++ ["b"],
          some (actionWrapMsg "b" "boom"))) ∧
    ["a"] = (([nodeA3].filter
      (wouldRunAction (none : Option Nat) flagsABC)).map
        (fun r => r.generatedName)) :=
  fail_fast_abort_amended failFastRunner [] flagsABC failFastRunner none 0
    [nodeA3] [nodeC3] nodeB3 [] ["a"] boomAct "boom" rfl rfl rfl rfl rfl
    rfl rfl rfl rfl

/-- C8 (counterexample): a top-level descriptor with
`runAllSiblings=true` and a non-nil action does NOT make `Run` fail:
`prepareForExecution` drops it from the execution list, so `Run`
returns nil and nothing is reported. -/
theorem ras_guard_cx :
    rasTopRunner.phases.map (fun p => (p.runAllSiblings, p.run.isSome)) =
      [(true, true)] ∧
    (rasTopRunner.run []).2 = ([], [], (none : Option String)) :=
  ⟨rfl, rfl⟩

/-- C8 (amended): the `runAllSiblings` guard fires for every FLATTENED
node (hence every nested `runAllSiblings` descriptor) that declares a
run function: when execution reaches such a run-flagged node, `Run`
aborts with the `InvalidPhaseConfiguration` message naming the node's
`generatedName`, without invoking that node's action (the traces stay
those of the prefix) and without touching any later node. -/
theorem ras_guard_amended {δ : Type} (e : Runner δ) (args : List String)
    (flags : List (String × Bool)) (e1 : Runner δ) (data : Option δ)
    (k : Nat) (L₁ L₂ : List (PhaseRunner δ)) (n : PhaseRunner δ)
    (c a : List String)
    (hok : computePhaseRunFlags (prepareForExecution e.phases) e.options =
      .ok flags)
    (hinit : initData e args = (e1, .ok data, k))
    (hsplit : prepareForExecution e.phases = L₁ ++ n :: L₂)
    (hpre : runPhases data flags L₁ = (c, a, none))
    (hflag : mapGet flags n.generatedName = some true)
    (hras : n.phase.runAllSiblings = true)
    (hfun : (n.phase.runIf.isSome || n.phase.run.isSome) = true) :
    e.run args = (e1, (c, a, some (runAllSiblingsMsg n.generatedName))) := by
  rw [run_ok_elim e args flags e1 data k hok hinit, hsplit]
  have hv := visitNode_ras_guard data flags n hflag hras hfun
  have hmid := runPhases_cons_error data flags n L₂ _ _ _ hv
  rw [runPhases_append_ok data flags L₁ (n :: L₂) c a hpre, hmid]
  simp

/-- Witness for amended C8: the nested `runAllSiblings` descriptor `g`
(flattened as `x/g`) declares an action, so the run aborts at `x/g`
with the guard message, after `x`'s action and without running `g`'s. -/
theorem ras_guard_amended_witness :
    nestedRasRunner.run [] =
      (nestedRasRunner,
        ([], ["x"], some (runAllSiblingsMsg "x/g"))) :=
  ras_guard_amended nestedRasRunner [] flagsXG nestedRasRunner none 0
    [nodeX] [] nodeG [] ["x"] rfl rfl rfl rfl rfl rfl rfl

/-- C9: a node whose run condition returns `(false, nil)` is skipped
without error — the condition trace records the evaluation, the action
trace gains nothing — and the executor continues with the remaining
flattened nodes (including the node's own children) exactly as if the
node were absent; in particular an otherwise all-succeeding list still
yields no error. -/
theorem cond_skip_not_error {δ : Type} (data : Option δ)
    (flags : List (String × Bool)) (n : PhaseRunner δ)
    (L : List (PhaseRunner δ)) (cnd : Option δ → Except String Bool)
    (hflag : mapGet flags n.generatedName = some true)
    (hras : n.phase.runAllSiblings = false)
    (hri : n.phase.runIf = some cnd) (hc : cnd data = .ok false) :
    runPhases data flags (n :: L) =
      (n.generatedName :: (runPhases data flags L).1,
        (runPhases data flags L).2.1,
        (runPhases data flags L).2.2) := by
  have hv := visitNode_cond_false data flags n cnd hflag hras hri hc
  rw [runPhases_cons_ok data flags n L _ _ hv]
  simp

/-- Witness for C9: parent `x` is skipped by its condition while its
child `x/y` still runs its action, and the whole list succeeds. -/
theorem cond_skip_not_error_witness :
    runPhases (none : Option Nat) flagsXY (nodeXc :: [nodeYc]) =
      ("x" :: (runPhases (none : Option Nat) flagsXY [nodeYc]).1,
        (runPhases (none : Option Nat) flagsXY [nodeYc]).2.1,
        (runPhases (none : Option Nat) flagsXY [nodeYc]).2.2) ∧
    runPhases (none : Option Nat) flagsXY [nodeYc] = ([], ["x/y"], none) :=
  ⟨cond_skip_not_error none flagsXY nodeXc [nodeYc] condFalseFn rfl rfl
    rfl rfl, rfl⟩

/-- Witness for C1 on the spec's example: tree `A{B,C{D}}`,
`FilterPhases=[a]`, `SkipPhases=[a/c]` yields
`{a:true, a/b:true, a/c:false, a/c/d:false}`, and the theorem applies:
`a/c` and its descendant `a/c/d` are off even though their ancestor `a`
was filtered in. -/
theorem skip_always_wins_witness :
    computePhaseRunFlags (prepareForExecution [phaseTreeA]) ⟨["a"], ["a/c"]⟩ =
      .ok mapC1 ∧
    (mapGet mapC1 "a/c" = some false ∧
      ∀ r ∈ prepareForExecution [phaseTreeA], "a/c" ∈ r.ancestors →
        mapGet mapC1 r.generatedName = some false) :=
  ⟨rfl, skip_always_wins [phaseTreeA] ⟨["a"], ["a/c"]⟩ mapC1 (by decide)
    rfl "a/c" (by decide)⟩

/-- Witness for C2 on the spec's example: tree `A{B,C{D}}`,
`FilterPhases=[a/c]` yields `{a:false, a/b:false, a/c:true, a/c/d:true}`,
and the theorem's characterization applies to every node. -/
theorem filter_inclusion_propagates_witness :
    computePhaseRunFlags (prepareForExecution [phaseTreeA]) ⟨["a/c"], []⟩ =
      .ok mapC2 ∧
    ∀ r ∈ prepareForExecution [phaseTreeA],
      mapGet mapC2 r.generatedName =
        some ((["a/c"] : List String).contains r.generatedName ||
          r.ancestors.any (fun a => (["a/c"] : List String).contains a)) :=
  ⟨rfl, filter_inclusion_propagates [phaseTreeA] ⟨["a/c"], []⟩ mapC2
    (by decide) (by decide) rfl rfl⟩

/-- Witness for C7: filtering on the unknown `a/zzz` over `A{B,C{D}}`
rejects the run with the unknown-phase error and empty traces. -/
theorem unknown_phase_rejected_witness :
    ∃ g ∈ unknownRunner.options.filterPhases ++
        unknownRunner.options.skipPhases,
      g ∉ runnerNames (prepareForExecution unknownRunner.phases) ∧
      unknownRunner.run [] =
        (unknownRunner, ([], [], some (unknownPhaseMsg g))) :=
  unknown_phase_rejected unknownRunner [] "a/zzz" (by decide) (by decide)

/-- C6 (counterexample): both halves of the claim fail.  First, the
factory is NOT invoked at most once after its first success:
`nilFactoryRunner`'s factory succeeds (it returns `(nil, nil)` in Go
terms: a nil context and no error), yet two `InitData` calls invoke it
twice, because a nil result leaves the cache empty.  Second, a factory
error is NOT returned without caching: `errCachingRunner`'s factory
returns a non-nil data value together with its error; the tuple
assignment caches that value before the error check, so the next
`InitData` call returns the cached value with no error and zero factory
invocations instead of retrying. -/
theorem run_context_singleton_cx :
    (initData nilFactoryRunner []).2 = (.ok none, 1) ∧
    (initCalls nilFactoryRunner [[], []]).2 = 2 ∧
    initData errCachingRunner [] =
      ({ errCachingRunner with runData := some 5 }, .error "nope", 1) ∧
    initData { errCachingRunner with runData := some 5 } [] =
      ({ errCachingRunner with runData := some 5 }, .ok (some 5), 0) :=
  ⟨rfl, rfl, rfl, rfl⟩

/-- C6 (amended): the run-context cache is a singleton for non-nil
cached values.  A cached non-nil context is returned unchanged with the
arguments ignored and the factory not invoked — over any further call
sequence the factory runs zero times.  When the cache is empty and a
factory is registered, one call invokes the factory exactly once and
always caches the returned data value: on success the value is also
returned; on error the error is propagated (with a nil result) but the
returned data value is cached anyway, so a later call retries only if
that value was nil — a non-nil value returned alongside the error is
served from the cache from then on.  A success returning a nil context
likewise caches nothing, so the factory may be invoked again. -/
theorem run_context_singleton_amended {δ : Type} (e : Runner δ)
    (args : List String) :
    (∀ d, e.runData = some d → initData e args = (e, .ok (some d), 0)) ∧
    (∀ f dv err, e.runData = none → e.runDataInitializer = some f →
      f args = (dv, some err) →
      initData e args = ({ e with runData := dv }, .error err, 1)) ∧
    (∀ f d, e.runData = none → e.runDataInitializer = some f →
      f args = (some d, none) →
      initData e args = ({ e with runData := some d }, .ok (some d), 1)) ∧
    (∀ d calls, e.runData = some d → initCalls e calls = (e, 0)) := by
  refine ⟨?_, ?_, ?_, ?_⟩
  · intro d hd
    simp [initData, hd]
  · intro f dv err hd hf hferr
    simp [initData, hd, hf, hferr]
  · intro f d hd hf hfok
    simp [initData, hd, hf, hfok]
  · intro d calls hd
    induction calls with
    | nil => rfl
    | cons args' rest ih =>
        have h1 : initData e args' = (e, .ok (some d), 0) := by
          simp [initData, hd]
        simp [initCalls, h1, ih]

/-- Witness for amended C6: a cached context is returned unchanged with
zero factory invocations over a three-call sequence; an erroring factory
propagates its error while caching the (here nil) data value it
returned; a successful factory caches its non-nil result. -/
theorem run_context_singleton_amended_witness :
    initData cachedRunner ["ignored"] = (cachedRunner, .ok (some 7), 0) ∧
    initData errRunner [] = (errRunner, .error "nope", 1) ∧
    initData goodRunner [] =
      ({ goodRunner with runData := some 7 }, .ok (some 7), 1) ∧
    initCalls cachedRunner [[], ["x"], []] = (cachedRunner, 0) :=
  ⟨(run_context_singleton_amended cachedRunner ["ignored"]).1 7 rfl,
    (run_context_singleton_amended errRunner []).2.1 errFactory none
      "nope" rfl rfl rfl,
    (run_context_singleton_amended goodRunner []).2.2.1 goodFactory 7
      rfl rfl rfl,
    (run_context_singleton_amended cachedRunner []).2.2.2 7
      [[], ["x"], []] rfl⟩

/-- C10: a runner with no registered data initializer gets a nil context
and no error from `InitData`, and `Run` proceeds to visit the phases
with that nil shared context instead of failing at the initialization
step. -/
theorem absent_factory_not_error {δ : Type} (e : Runner δ)
    (args : List String) (hini : e.runDataInitializer = none)
    (hdat : e.runData = none) :
    initData e args = (e, .ok none, 0) ∧
    ∀ flags,
      computePhaseRunFlags (prepareForExecution e.phases) e.options =
        .ok flags →
      e.run args = (e, runPhases none flags (prepareForExecution e.phases)) := by
  have h1 : initData e args = (e, .ok none, 0) := by
    simp [initData, hini, hdat]
  refine ⟨h1, ?_⟩
  intro flags hok
  exact run_ok_elim e args flags e none 0 hok h1

/-- Witness for C10: `bareRunner` has no initializer; `InitData` yields
`(nil, nil)` and `Run` executes the phases with the nil context. -/
theorem absent_factory_not_error_witness :
    initData bareRunner [] = (bareRunner, .ok none, 0) ∧
    bareRunner.run [] =
      (bareRunner,
        runPhases none [("a", true)] (prepareForExecution bareRunner.phases)) :=
  ⟨(absent_factory_not_error bareRunner [] rfl rfl).1,
    (absent_factory_not_error bareRunner [] rfl rfl).2 [("a", true)] rfl⟩

end Workflow
